import Mathlib

/-!
Verification of the load-balancer repository (dispatcher and worker server).
The Rust sources are embedded shallowly: usize counters become Int (so that
non-negativity is a provable invariant), u64 durations become Nat, f64 error
rates become Rat, timestamps become Nat milliseconds, and the fallible HTTP
layers become explicit outcome parameters.
-/

namespace LoadBalancerProof

/-- Balancing algorithm enum from balancing_algorithm.rs. -/
inductive BalancingAlgorithm where
  | RoundRobin
  | LeastConnections
deriving DecidableEq, Repr

def ROUND_ROBIN : String := "round_robin"

def LEAST_CONNECTIONS : String := "least_connections"

/-- Models `TryFrom<&str> for BalancingAlgorithm`: `Ok` becomes `some`, the
`ConversionError` becomes `none`. -/
def tryFromStr (value : String) : Option BalancingAlgorithm :=
  if value = ROUND_ROBIN then some .RoundRobin
  else if value = LEAST_CONNECTIONS then some .LeastConnections
  else none

/-- Models the Display impl for BalancingAlgorithm. -/
def algoDisplay : BalancingAlgorithm → String
  | .RoundRobin => ROUND_ROBIN
  | .LeastConnections => LEAST_CONNECTIONS

/-- Server record from server.rs. The usize counter is modelled as Int so
that the never-negative invariant is a theorem, not a typing artifact. -/
structure Server where
  address : String
  connections : Int
deriving DecidableEq, Repr

def Server.getConnections (s : Server) : Int := s.connections

/-- Models Server::increment_connections. -/
def Server.incrementConnections (s : Server) : Server :=
  { s with connections := s.connections + 1 }

/-- Models Server::decrement_connections: guarded, so zero stays zero. -/
def Server.decrementConnections (s : Server) : Server :=
  if s.connections > 0 then { s with connections := s.connections - 1 } else s

/-- Default used when indexing; the Rust code never reads it because every
index it forms is in bounds (the pool is non-empty by construction). -/
def dummyServer : Server := ⟨"", 0⟩

def MIN_SECONDS_BETWEEN_ALGO_CHANGES : Nat := 5

/-- LoadBalancer state from load_balancer.rs. `last_check` is a timestamp in
milliseconds. -/
structure LoadBalancer where
  servers : List Server
  current_server : Nat
  algorithm : BalancingAlgorithm
  last_check : Nat
deriving DecidableEq, Repr

/-- Models `iter().enumerate().min_by_key(|(_, s)| s.get_connections())` on
the sublist starting at absolute index `i`: Rust's `min_by_key` keeps the
first of equally-minimal elements, so a later element replaces the candidate
only when its count is strictly smaller. -/
def minConnFrom : Nat → List Server → Option (Nat × Server)
  | _, [] => none
  | i, s :: rest =>
    match minConnFrom (i + 1) rest with
    | none => some (i, s)
    | some (j, t) => if t.connections < s.connections then some (j, t) else some (i, s)

/-- The enumerate-then-min-by-key expression used by next_server and by the
supervisor, on the whole pool. -/
def minConnEnum (ss : List Server) : Option (Nat × Server) := minConnFrom 0 ss

/-- Models `.max_by_key(|s| s.get_connections()).unwrap().get_connections()`:
only the maximal connection count is consumed. -/
def maxConns : List Server → Option Int
  | [] => none
  | s :: rest =>
    match maxConns rest with
    | none => some s.connections
    | some m => some (max s.connections m)

/-- Models `.min_by_key(|s| s.get_connections()).unwrap().get_connections()`. -/
def minConns : List Server → Option Int
  | [] => none
  | s :: rest =>
    match minConns rest with
    | none => some s.connections
    | some m => some (min s.connections m)

/-- The value of the local `recommended_algo` in
check_conditions_and_set_best_algo after its match statement. The `getD 0`
and the `none` arm model the `.unwrap()` calls, unreachable on the non-empty
pools the constructor admits. -/
def recommendedAlgo (lb : LoadBalancer) : BalancingAlgorithm :=
  match lb.algorithm with
  | .RoundRobin =>
    let max_connections := (maxConns lb.servers).getD 0
    let min_connections := (minConns lb.servers).getD 0
    if max_connections - min_connections > 3 then .LeastConnections else .RoundRobin
  | .LeastConnections =>
    match minConnEnum lb.servers with
    | some (new_server, _) =>
      if new_server = lb.current_server then .RoundRobin else .LeastConnections
    | none => .LeastConnections

/-- Models LoadBalancer::set_algorithm. -/
def setAlgorithm (lb : LoadBalancer) (algorithm : BalancingAlgorithm) : LoadBalancer :=
  { lb with algorithm := algorithm }

/-- Models check_conditions_and_set_best_algo. `now` is the current time in
milliseconds; chrono's `num_seconds` of the elapsed duration is
`(now - last_check) / 1000`. Nat subtraction sends a clock that went
backwards below the threshold, exactly as chrono's negative seconds would. -/
def checkConditionsAndSetBestAlgo (lb : LoadBalancer) (now : Nat) : LoadBalancer :=
  if lb.servers.length = 1 then lb
  else if (now - lb.last_check) / 1000 < MIN_SECONDS_BETWEEN_ALGO_CHANGES then lb
  else if recommendedAlgo lb = lb.algorithm then lb
  else { setAlgorithm lb (recommendedAlgo lb) with last_check := now }

/-- In-place mutation `server.increment_connections()` on slot `i` of the
pool. -/
def incrementAt (ss : List Server) (i : Nat) : List Server :=
  ss.set i ((ss.getD i dummyServer).incrementConnections)

/-- Models LoadBalancer::next_server. Returns the new state together with the
index of the chosen backend — the slot of the `&Server` the Rust function
returns (whose post-increment contents are `servers.getD index` of the new
state). The `none` arm models the `.unwrap()` on an empty pool, which the
constructor makes unreachable. -/
def nextServer (lb : LoadBalancer) (now : Nat) : LoadBalancer × Nat :=
  let lb1 := checkConditionsAndSetBestAlgo lb now
  match lb1.algorithm with
  | .RoundRobin =>
    let servers_count := lb1.servers.length
    let i := lb1.current_server
    ({ lb1 with servers := incrementAt lb1.servers i,
                current_server := (i + 1) % servers_count }, i)
  | .LeastConnections =>
    match minConnEnum lb1.servers with
    | some (index, _) =>
      ({ lb1 with servers := incrementAt lb1.servers index,
                  current_server := index }, index)
    | none => (lb1, lb1.current_server)

/-- Models LoadBalancer::get_server_by_address, as the index of the first
server whose address equals `address` (`iter_mut().find` with string
equality, hence a case-sensitive exact match). -/
def getServerByAddressIdx (ss : List Server) (address : String) : Option Nat :=
  ss.findIdx? (fun s => s.address == address)

/-- The release step of forward_request: look the backend up by address and
decrement its counter. An address with no match leaves the pool unchanged
(the call site's `.unwrap()` would panic there, before touching any
counter). -/
def releaseByAddress (ss : List Server) (address : String) : List Server :=
  match getServerByAddressIdx ss address with
  | some i => ss.set i ((ss.getD i dummyServer).decrementConnections)
  | none => ss

structure HttpResponse where
  status : Nat
  body : String
deriving DecidableEq, Repr

/-- Models change_algo in load-balancer/src/main.rs. `algoField` is the
result of `data.get("algo").and_then(|v| v.as_str())`; `none` is a missing
key or a non-string value. -/
def changeAlgo (lb : LoadBalancer) (algoField : Option String) :
    LoadBalancer × HttpResponse :=
  match algoField with
  | some algo_value =>
    match tryFromStr algo_value with
    | some algo =>
      (setAlgorithm lb algo,
       ⟨200, "Algorithm changed successfully to " ++ algoDisplay algo⟩)
    | none =>
      (lb, ⟨400, "Invalid algorithm value \x27" ++ algo_value ++ "\x27"⟩)
  | none => (lb, ⟨400, "Missing or invalid \x27algo\x27 key"⟩)

/-- Outcome of the forwarding exchange attempted by forward_request. -/
inductive ForwardOutcome where
  | connectRefused
  | handshakeFailure
  | midStreamError
  | success (status : Nat)
deriving DecidableEq, Repr

/-- What the client-facing side of forward_request produces: an HTTP response
with the given status, a panic of the serving task
(`TcpStream::connect(..).unwrap()`), or an error returned to hyper through
`?`, which aborts the client connection without a response. -/
inductive ForwardResult where
  | response (status : Nat)
  | taskPanic
  | errorPropagated
deriving DecidableEq, Repr

/-- Models forward_request in load-balancer/src/main.rs: pick a backend under
the write lock (incrementing its counter), then attempt the exchange.
A refused connection panics through `.unwrap()`; handshake and send errors
propagate through `?` out of the handler; only the success path reaches the
decrement, and the worker's status is passed through unchanged. -/
def forwardRequest (lb : LoadBalancer) (now : Nat) (outcome : ForwardOutcome) :
    LoadBalancer × ForwardResult :=
  let p := nextServer lb now
  let lb1 := p.1
  let worker_addr := (lb1.servers.getD p.2 dummyServer).address
  match outcome with
  | .connectRefused => (lb1, .taskPanic)
  | .handshakeFailure => (lb1, .errorPropagated)
  | .midStreamError => (lb1, .errorPropagated)
  | .success status =>
    ({ lb1 with servers := releaseByAddress lb1.servers worker_addr },
     .response status)

/-! Worker server (worker-server/src/main.rs). -/

def DEFAULT_MIN_DURATION : Nat := 10

def DEFAULT_MAX_DURATION : Nat := 10

def DEFAULT_ERROR_RATE : Rat := 0

/-- GlobalState from worker-server/src/main.rs: u64 as Nat, f64 as Rat. -/
structure GlobalState where
  min_duration : Nat
  max_duration : Nat
  error_rate : Rat
deriving DecidableEq, Repr

def defaultGlobalState : GlobalState :=
  ⟨DEFAULT_MIN_DURATION, DEFAULT_MAX_DURATION, DEFAULT_ERROR_RATE⟩

/-- Models `f64::clamp(lo, hi)` on the rationals. -/
def clampRat (x lo hi : Rat) : Rat := min (max x lo) hi

/-- Models the state computed by the setup handler. Each argument is the
parsed value of the corresponding stringified JSON field; `none` merges the
key-missing and parse-failure cases, which the code sends to the same
fallback (`unwrap_or` of the value the missing-key arm also uses). The
handler then stores this state and always answers 200. -/
def setupCompute (minField maxField : Option Nat) (errField : Option Rat) :
    GlobalState :=
  let min_duration := minField.getD DEFAULT_MIN_DURATION
  let max_duration := Nat.max (maxField.getD min_duration) DEFAULT_MAX_DURATION
  let error_rate := clampRat (errField.getD DEFAULT_ERROR_RATE) 0 1
  ⟨min_duration, max_duration, error_rate⟩

/-- Tunables states reachable from the startup defaults by a finite sequence
of POST /setup requests (setup overwrites all three fields, so the new state
does not depend on the old one). -/
inductive ReachableTunables : GlobalState → Prop where
  | init : ReachableTunables defaultGlobalState
  | step (g : GlobalState) (minField maxField : Option Nat) (errField : Option Rat) :
      ReachableTunables g → ReachableTunables (setupCompute minField maxField errField)

/-- Precondition of `gen_range(state.min_duration..=state.max_duration)` in
the work handler: rand panics when the inclusive range is empty. -/
def genRangeInclusiveNonempty (lo hi : Nat) : Prop := lo ≤ hi

instance (lo hi : Nat) : Decidable (genRangeInclusiveNonempty lo hi) :=
  inferInstanceAs (Decidable (lo ≤ hi))

/-! Basic facts about the embedded operations, shared by several claims. -/

/-- Every counter in the pool is non-negative. -/
def AllNonneg (ss : List Server) : Prop := ∀ s ∈ ss, 0 ≤ s.connections

theorem incrementConnections_nonneg {s : Server} (h : 0 ≤ s.connections) :
    0 ≤ s.incrementConnections.connections := by
  show (0 : Int) ≤ s.connections + 1
  omega

theorem decrementConnections_nonneg {s : Server} (h : 0 ≤ s.connections) :
    0 ≤ s.decrementConnections.connections := by
  unfold Server.decrementConnections
  split
  · show (0 : Int) ≤ s.connections - 1
    rename_i h1
    omega
  · exact h

theorem allNonneg_set {ss : List Server} {x : Server} (h : AllNonneg ss)
    (hx : 0 ≤ x.connections) (i : Nat) : AllNonneg (ss.set i x) := by
  intro t ht
  rcases List.mem_or_eq_of_mem_set ht with h1 | h2
  · exact h t h1
  · rw [h2]
    exact hx

theorem getD_connections_nonneg {ss : List Server} (h : AllNonneg ss) (i : Nat) :
    0 ≤ (ss.getD i dummyServer).connections := by
  rw [List.getD_eq_getElem?_getD]
  cases hg : ss[i]? with
  | none => exact le_refl 0
  | some t =>
    have ht : t ∈ ss := by
      rcases List.getElem?_eq_some_iff.mp hg with ⟨hlt, he⟩
      exact he ▸ List.getElem_mem hlt
    exact h t ht

theorem allNonneg_incrementAt {ss : List Server} (h : AllNonneg ss) (i : Nat) :
    AllNonneg (incrementAt ss i) :=
  allNonneg_set h (incrementConnections_nonneg (getD_connections_nonneg h i)) i

theorem allNonneg_release {ss : List Server} (h : AllNonneg ss) (a : String) :
    AllNonneg (releaseByAddress ss a) := by
  unfold releaseByAddress
  split
  · rename_i i hi
    exact allNonneg_set h
      (decrementConnections_nonneg (getD_connections_nonneg h i)) i
  · exact h

theorem check_servers_eq (lb : LoadBalancer) (now : Nat) :
    (checkConditionsAndSetBestAlgo lb now).servers = lb.servers := by
  unfold checkConditionsAndSetBestAlgo
  split_ifs <;> rfl

theorem check_cursor_eq (lb : LoadBalancer) (now : Nat) :
    (checkConditionsAndSetBestAlgo lb now).current_server = lb.current_server := by
  unfold checkConditionsAndSetBestAlgo
  split_ifs <;> rfl

theorem nextServer_servers_eq (lb : LoadBalancer) (now : Nat) :
    (nextServer lb now).1.servers = incrementAt lb.servers (nextServer lb now).2 ∨
    (nextServer lb now).1.servers = lb.servers := by
  have hs := check_servers_eq lb now
  cases halg : (checkConditionsAndSetBestAlgo lb now).algorithm with
  | RoundRobin =>
    left
    simp only [nextServer, halg, hs]
  | LeastConnections =>
    cases hmin : minConnEnum (checkConditionsAndSetBestAlgo lb now).servers with
    | none =>
      right
      rw [hs] at hmin
      simp only [nextServer, halg, hmin, hs]
    | some p =>
      obtain ⟨index, t⟩ := p
      left
      rw [hs] at hmin
      simp only [nextServer, halg, hmin, hs]

instance (ss : List Server) : Decidable (AllNonneg ss) :=
  inferInstanceAs (Decidable (∀ s ∈ ss, 0 ≤ s.connections))

theorem incrementAt_facts {ss : List Server} {i : Nat} (h : i < ss.length) :
    (incrementAt ss i).length = ss.length ∧
    (∀ j, j ≠ i → (incrementAt ss i)[j]? = ss[j]?) ∧
    ∃ t, ss[i]? = some t ∧ (incrementAt ss i)[i]? = some t.incrementConnections := by
  refine ⟨List.length_set .., ?_, ?_⟩
  · intro j hj
    exact List.getElem?_set_ne (fun he => hj he.symm)
  · refine ⟨ss.get ⟨i, h⟩, by simp [List.getElem?_eq_getElem h], ?_⟩
    unfold incrementAt
    rw [List.getElem?_set_self h, List.getD_eq_getElem?_getD,
      List.getElem?_eq_getElem h]
    simp

theorem minConnFrom_eq_none {i : Nat} {ss : List Server}
    (h : minConnFrom i ss = none) : ss = [] := by
  cases ss with
  | nil => rfl
  | cons s rest =>
    unfold minConnFrom at h
    cases hrec : minConnFrom (i + 1) rest with
    | none =>
      simp only [hrec] at h
      exact Option.noConfusion h
    | some p =>
      obtain ⟨j, t⟩ := p
      simp only [hrec] at h
      split at h <;> exact Option.noConfusion h

theorem minConnFrom_spec :
    ∀ (ss : List Server) (i j : Nat) (t : Server),
      minConnFrom i ss = some (j, t) →
      ∃ k, k < ss.length ∧ j = i + k ∧ ss[k]? = some t ∧
        (∀ (m : Nat) (u : Server), ss[m]? = some u → t.connections ≤ u.connections) ∧
        (∀ (m : Nat) (u : Server), m < k → ss[m]? = some u →
          t.connections < u.connections) := by
  intro ss
  induction ss with
  | nil =>
    intro i j t h
    exact absurd h (by simp [minConnFrom])
  | cons s rest ih =>
    intro i j t h
    unfold minConnFrom at h
    cases hrec : minConnFrom (i + 1) rest with
    | none =>
      have hrest : rest = [] := minConnFrom_eq_none hrec
      subst hrest
      simp only [hrec, Option.some.injEq, Prod.mk.injEq] at h
      obtain ⟨hj, ht⟩ := h
      subst hj
      subst ht
      refine ⟨0, by simp, by omega, by simp, ?_, ?_⟩
      · intro m u hm
        rcases m with _ | m
        · simp only [List.getElem?_cons_zero, Option.some.injEq] at hm
          rw [hm]
        · simp at hm
      · intro m u hmk hm
        omega
    | some p =>
      obtain ⟨j1, t1⟩ := p
      obtain ⟨k1, hk1, hj1, hget1, hle1, hstrict1⟩ := ih (i + 1) j1 t1 hrec
      simp only [hrec] at h
      split at h
      · rename_i hlt
        simp only [Option.some.injEq, Prod.mk.injEq] at h
        obtain ⟨hj, ht⟩ := h
        subst hj
        subst ht
        refine ⟨k1 + 1, by simp; omega, by omega, by simpa using hget1, ?_, ?_⟩
        · intro m u hm
          rcases m with _ | m
          · simp only [List.getElem?_cons_zero, Option.some.injEq] at hm
            rw [← hm]
            exact le_of_lt hlt
          · exact hle1 m u (by simpa using hm)
        · intro m u hmk hm
          rcases m with _ | m
          · simp only [List.getElem?_cons_zero, Option.some.injEq] at hm
            rw [← hm]
            exact hlt
          · exact hstrict1 m u (by omega) (by simpa using hm)
      · rename_i hnlt
        simp only [Option.some.injEq, Prod.mk.injEq] at h
        obtain ⟨hj, ht⟩ := h
        subst hj
        subst ht
        refine ⟨0, by simp, by omega, by simp, ?_, ?_⟩
        · intro m u hm
          rcases m with _ | m
          · simp only [List.getElem?_cons_zero, Option.some.injEq] at hm
            rw [hm]
          · exact le_trans (le_of_not_lt hnlt) (hle1 m u (by simpa using hm))
        · intro m u hmk hm
          omega

theorem minConnEnum_spec {ss : List Server} {j : Nat} {t : Server}
    (h : minConnEnum ss = some (j, t)) :
    j < ss.length ∧ ss[j]? = some t ∧
      (∀ u ∈ ss, t.connections ≤ u.connections) ∧
      (∀ m u, m < j → ss[m]? = some u → t.connections < u.connections) := by
  obtain ⟨k, hk, hjk, hget, hle, hstrict⟩ := minConnFrom_spec ss 0 j t h
  have hj : j = k := by omega
  subst hj
  refine ⟨hk, hget, ?_, hstrict⟩
  intro u hu
  obtain ⟨n, hn⟩ := List.mem_iff_getElem?.mp hu
  exact hle n u hn

theorem minConnEnum_isSome {ss : List Server} (h : ss ≠ []) :
    ∃ j t, minConnEnum ss = some (j, t) := by
  cases hm : minConnEnum ss with
  | none => exact absurd (minConnFrom_eq_none hm) h
  | some p =>
    obtain ⟨j, t⟩ := p
    exact ⟨j, t, rfl⟩

theorem maxConns_eq_none {ss : List Server} (h : maxConns ss = none) : ss = [] := by
  cases ss with
  | nil => rfl
  | cons s rest =>
    unfold maxConns at h
    cases hrec : maxConns rest <;> simp only [hrec] at h <;>
      exact Option.noConfusion h

theorem minConns_eq_none {ss : List Server} (h : minConns ss = none) : ss = [] := by
  cases ss with
  | nil => rfl
  | cons s rest =>
    unfold minConns at h
    cases hrec : minConns rest <;> simp only [hrec] at h <;>
      exact Option.noConfusion h

theorem maxConns_spec :
    ∀ {ss : List Server} {M : Int}, maxConns ss = some M →
      (∃ u ∈ ss, u.connections = M) ∧ ∀ u ∈ ss, u.connections ≤ M := by
  intro ss
  induction ss with
  | nil =>
    intro M h
    exact absurd h (by simp [maxConns])
  | cons s rest ih =>
    intro M h
    unfold maxConns at h
    cases hrec : maxConns rest with
    | none =>
      have hrest : rest = [] := maxConns_eq_none hrec
      subst hrest
      simp only [hrec, Option.some.injEq] at h
      subst h
      exact ⟨⟨s, by simp, rfl⟩, by simp⟩
    | some m1 =>
      obtain ⟨⟨u1, hu1, hu1e⟩, hle1⟩ := ih hrec
      simp only [hrec, Option.some.injEq] at h
      subst h
      constructor
      · rcases max_choice s.connections m1 with hc | hc
        · exact ⟨s, by simp, hc.symm⟩
        · exact ⟨u1, by simp [hu1], by rw [hu1e, hc]⟩
      · intro u hu
        rcases List.mem_cons.mp hu with hu | hu
        · rw [hu]
          exact le_max_left _ _
        · exact le_trans (hle1 u hu) (le_max_right _ _)

theorem minConns_spec :
    ∀ {ss : List Server} {m : Int}, minConns ss = some m →
      (∃ u ∈ ss, u.connections = m) ∧ ∀ u ∈ ss, m ≤ u.connections := by
  intro ss
  induction ss with
  | nil =>
    intro m h
    exact absurd h (by simp [minConns])
  | cons s rest ih =>
    intro m h
    unfold minConns at h
    cases hrec : minConns rest with
    | none =>
      have hrest : rest = [] := minConns_eq_none hrec
      subst hrest
      simp only [hrec, Option.some.injEq] at h
      subst h
      exact ⟨⟨s, by simp, rfl⟩, by simp⟩
    | some m1 =>
      obtain ⟨⟨u1, hu1, hu1e⟩, hle1⟩ := ih hrec
      simp only [hrec, Option.some.injEq] at h
      subst h
      constructor
      · rcases min_choice s.connections m1 with hc | hc
        · exact ⟨s, by simp, hc.symm⟩
        · exact ⟨u1, by simp [hu1], by rw [hu1e, hc]⟩
      · intro u hu
        rcases List.mem_cons.mp hu with hu | hu
        · rw [hu]
          exact min_le_left _ _
        · exact le_trans (min_le_right _ _) (hle1 u hu)

/-! Theorems settling the claims. -/

/-- C2: the documented setup invariant fails on the code. For the body
with min_duration "100", max_duration "50", error_rate "2.0" the handler
accepts and stores min_duration = 100, max_duration = 50 — the floor applied
to max_duration is the constant 10, not min_duration — and error_rate = 1,
so min_duration ≤ max_duration is violated right after a 200 response. -/
theorem c2_setup_invariant_violated :
    setupCompute (some 100) (some 50) (some 2) = ⟨100, 50, 1⟩ ∧
    ¬ (setupCompute (some 100) (some 50) (some 2)).min_duration ≤
        (setupCompute (some 100) (some 50) (some 2)).max_duration := by
  constructor
  · decide
  · decide

/-- C3: a tunables state reachable from the startup defaults by one POST
/setup has min_duration > max_duration, so the inclusive range
min_duration..=max_duration drawn by the work handler is empty there and
gen_range panics on it. -/
theorem c3_work_range_can_be_empty :
    ∃ g : GlobalState, ReachableTunables g ∧
      ¬ genRangeInclusiveNonempty g.min_duration g.max_duration := by
  refine ⟨setupCompute (some 100) (some 50) (some 2), ?_, ?_⟩
  · exact ReachableTunables.step defaultGlobalState (some 100) (some 50) (some 2)
      ReachableTunables.init
  · decide

/-- C1: counter accounting on forwarding failure. From a one-backend pool at
count 0, the pick increments the counter to 1; a refused connection panics
the serving task and a handshake or mid-stream failure propagates the error
out of the handler, in every failure case leaving the counter at 1 (never
decremented) and producing no HTTP response at all, hence no 5xx; only the
success path decrements it back to 0. -/
theorem c1_forward_failure_leaks_counter :
    forwardRequest ⟨[⟨"127.0.0.1:3000", 0⟩], 0, .RoundRobin, 0⟩ 0 .connectRefused
      = (⟨[⟨"127.0.0.1:3000", 1⟩], 0, .RoundRobin, 0⟩, .taskPanic) ∧
    forwardRequest ⟨[⟨"127.0.0.1:3000", 0⟩], 0, .RoundRobin, 0⟩ 0 .handshakeFailure
      = (⟨[⟨"127.0.0.1:3000", 1⟩], 0, .RoundRobin, 0⟩, .errorPropagated) ∧
    forwardRequest ⟨[⟨"127.0.0.1:3000", 0⟩], 0, .RoundRobin, 0⟩ 0 .midStreamError
      = (⟨[⟨"127.0.0.1:3000", 1⟩], 0, .RoundRobin, 0⟩, .errorPropagated) ∧
    forwardRequest ⟨[⟨"127.0.0.1:3000", 0⟩], 0, .RoundRobin, 0⟩ 0 (.success 200)
      = (⟨[⟨"127.0.0.1:3000", 0⟩], 0, .RoundRobin, 0⟩, .response 200) := by
  decide

/-- C8 counterexample: under round_robin a pick returns the backend at the
pre-call cursor but leaves the cursor one past it. From a fresh two-backend
pool the call chooses index 0 yet sets the cursor to 1, so after the call the
cursor is not the index of the backend the call returned. -/
theorem c8_cursor_not_chosen_index :
    (nextServer ⟨[⟨"127.0.0.1:3000", 0⟩, ⟨"127.0.0.1:3001", 0⟩], 0,
        .RoundRobin, 0⟩ 0).2 = 0 ∧
    (nextServer ⟨[⟨"127.0.0.1:3000", 0⟩, ⟨"127.0.0.1:3001", 0⟩], 0,
        .RoundRobin, 0⟩ 0).1.current_server = 1 := by
  decide

/-- C9: no counter ever becomes negative under pick, release-by-address and
set-algorithm: decrementing a zero counter is a no-op, releasing an address
with no exact match changes nothing, and every operation preserves
non-negativity of every counter in the pool. -/
theorem c9_counters_never_negative (s : Server) (ss : List Server) (a : String)
    (lb : LoadBalancer) (now : Nat) (algo : BalancingAlgorithm) :
    (s.connections = 0 → s.decrementConnections = s) ∧
    ((∀ t ∈ ss, t.address ≠ a) → releaseByAddress ss a = ss) ∧
    (AllNonneg ss → AllNonneg (releaseByAddress ss a)) ∧
    (AllNonneg lb.servers → AllNonneg (nextServer lb now).1.servers) ∧
    (AllNonneg lb.servers → AllNonneg (setAlgorithm lb algo).servers) := by
  refine ⟨?_, ?_, fun h => allNonneg_release h a, ?_, fun h => h⟩
  · intro h0
    unfold Server.decrementConnections
    rw [h0]
    simp
  · intro hno
    have hfind : getServerByAddressIdx ss a = none := by
      unfold getServerByAddressIdx
      exact List.findIdx?_eq_none_iff.mpr (fun x hx => by simpa using hno x hx)
    unfold releaseByAddress
    rw [hfind]
  · intro h
    rcases nextServer_servers_eq lb now with he | he
    · rw [he]
      exact allNonneg_incrementAt h _
    · rw [he]
      exact h

/-- Witness for C9: the release of an unmatched address is a no-op and a pick
keeps the pool non-negative, on a concrete one-backend pool. -/
theorem c9_counters_never_negative_witness :
    releaseByAddress [⟨"127.0.0.1:3000", 0⟩] ("127.0.0.1:9999")
      = [⟨"127.0.0.1:3000", 0⟩] ∧
    AllNonneg (nextServer ⟨[⟨"127.0.0.1:3000", 0⟩], 0, .RoundRobin, 0⟩ 0).1.servers :=
  ⟨(c9_counters_never_negative ⟨"127.0.0.1:3000", 0⟩ [⟨"127.0.0.1:3000", 0⟩]
      ("127.0.0.1:9999") ⟨[⟨"127.0.0.1:3000", 0⟩], 0, .RoundRobin, 0⟩ 0
      .RoundRobin).2.1 (by decide),
   (c9_counters_never_negative ⟨"127.0.0.1:3000", 0⟩ [⟨"127.0.0.1:3000", 0⟩]
      ("127.0.0.1:9999") ⟨[⟨"127.0.0.1:3000", 0⟩], 0, .RoundRobin, 0⟩ 0
      .RoundRobin).2.2.2.1 (by decide)⟩

/-- C7: the /algo handler. A valid name updates exactly the algorithm and
answers 200 with the plaintext acknowledgement; an unknown name answers 400
quoting the value and a missing or non-string key answers 400, both leaving
the state untouched; and no input to this handler reads or writes last_check
(the 5-second hysteresis timer), the pool or the cursor. -/
theorem c7_change_algo (lb : LoadBalancer) (s : String) :
    (∀ a, tryFromStr s = some a →
      changeAlgo lb (some s) =
        (setAlgorithm lb a,
         ⟨200, "Algorithm changed successfully to " ++ algoDisplay a⟩)) ∧
    (tryFromStr s = none →
      changeAlgo lb (some s) =
        (lb, ⟨400, "Invalid algorithm value \x27" ++ s ++ "\x27"⟩)) ∧
    changeAlgo lb none = (lb, ⟨400, "Missing or invalid \x27algo\x27 key"⟩) ∧
    tryFromStr ROUND_ROBIN = some .RoundRobin ∧
    tryFromStr LEAST_CONNECTIONS = some .LeastConnections ∧
    (∀ f, (changeAlgo lb f).1.last_check = lb.last_check ∧
      (changeAlgo lb f).1.servers = lb.servers ∧
      (changeAlgo lb f).1.current_server = lb.current_server) := by
  refine ⟨?_, ?_, rfl, by decide, by decide, ?_⟩
  · intro a ha
    simp only [changeAlgo, ha]
  · intro ha
    simp only [changeAlgo, ha]
  · intro f
    cases f with
    | none => exact ⟨rfl, rfl, rfl⟩
    | some v =>
      cases hv : tryFromStr v with
      | none => simp [changeAlgo, hv]
      | some a => simp [changeAlgo, hv, setAlgorithm]

/-- Witness for C7: a valid and an invalid /algo body on a concrete state. -/
theorem c7_change_algo_witness :
    changeAlgo ⟨[⟨"127.0.0.1:3000", 0⟩], 0, .RoundRobin, 7⟩
        (some ("least_connections")) =
      (setAlgorithm ⟨[⟨"127.0.0.1:3000", 0⟩], 0, .RoundRobin, 7⟩ .LeastConnections,
       ⟨200, "Algorithm changed successfully to " ++ algoDisplay .LeastConnections⟩) ∧
    changeAlgo ⟨[⟨"127.0.0.1:3000", 0⟩], 0, .RoundRobin, 7⟩ (some ("bogus")) =
      (⟨[⟨"127.0.0.1:3000", 0⟩], 0, .RoundRobin, 7⟩,
       ⟨400, "Invalid algorithm value \x27" ++ "bogus" ++ "\x27"⟩) :=
  ⟨(c7_change_algo ⟨[⟨"127.0.0.1:3000", 0⟩], 0, .RoundRobin, 7⟩
      ("least_connections")).1 .LeastConnections (by decide),
   (c7_change_algo ⟨[⟨"127.0.0.1:3000", 0⟩], 0, .RoundRobin, 7⟩
      ("bogus")).2.1 (by decide)⟩

/-- C6: the supervisor at the top of next_server on a pool of at least two
backends. maxConns and minConns are exactly the maximum and minimum counters
of the pool; under round_robin the recommendation is least_connections
precisely when their gap exceeds 3; under least_connections it is
round_robin precisely when the earliest backend holding the minimal counter
sits at the index equal to the cursor; the recommendation is applied exactly
when at least five seconds have elapsed since last_check and it differs from
the current algorithm, and applying sets last_check to now — so a
supervisor-driven change implies at least 5000 ms elapsed and restamps the
clock, giving at most one change per five seconds. -/
theorem c6_supervisor (lb : LoadBalancer) (now : Nat)
    (h2 : 2 ≤ lb.servers.length) :
    (∀ M, maxConns lb.servers = some M →
      (∃ u ∈ lb.servers, u.connections = M) ∧
      ∀ u ∈ lb.servers, u.connections ≤ M) ∧
    (∀ m, minConns lb.servers = some m →
      (∃ u ∈ lb.servers, u.connections = m) ∧
      ∀ u ∈ lb.servers, m ≤ u.connections) ∧
    (∀ M m, maxConns lb.servers = some M → minConns lb.servers = some m →
      lb.algorithm = .RoundRobin →
      (recommendedAlgo lb = .LeastConnections ↔ 3 < M - m)) ∧
    (∀ j t, lb.algorithm = .LeastConnections →
      minConnEnum lb.servers = some (j, t) →
      (∀ u ∈ lb.servers, t.connections ≤ u.connections) ∧
      (recommendedAlgo lb = .RoundRobin ↔ j = lb.current_server)) ∧
    (checkConditionsAndSetBestAlgo lb now =
      if MIN_SECONDS_BETWEEN_ALGO_CHANGES ≤ (now - lb.last_check) / 1000 ∧
          recommendedAlgo lb ≠ lb.algorithm
      then { setAlgorithm lb (recommendedAlgo lb) with last_check := now }
      else lb) ∧
    ((checkConditionsAndSetBestAlgo lb now).algorithm ≠ lb.algorithm →
      5000 ≤ now - lb.last_check ∧
      (checkConditionsAndSetBestAlgo lb now).last_check = now ∧
      (checkConditionsAndSetBestAlgo lb now).algorithm = recommendedAlgo lb) := by
  have hif : checkConditionsAndSetBestAlgo lb now =
      if MIN_SECONDS_BETWEEN_ALGO_CHANGES ≤ (now - lb.last_check) / 1000 ∧
          recommendedAlgo lb ≠ lb.algorithm
      then { setAlgorithm lb (recommendedAlgo lb) with last_check := now }
      else lb := by
    unfold checkConditionsAndSetBestAlgo
    have hne1 : ¬ lb.servers.length = 1 := by omega
    rw [if_neg hne1]
    by_cases hcool : (now - lb.last_check) / 1000 < MIN_SECONDS_BETWEEN_ALGO_CHANGES
    · rw [if_pos hcool, if_neg]
      intro hc
      exact absurd hc.1 (Nat.not_le.mpr hcool)
    · rw [if_neg hcool]
      by_cases hrec : recommendedAlgo lb = lb.algorithm
      · rw [if_pos hrec, if_neg]
        intro hc
        exact hc.2 hrec
      · rw [if_neg hrec, if_pos ⟨Nat.not_lt.mp hcool, hrec⟩]
  refine ⟨fun M hM => maxConns_spec hM, fun m hm => minConns_spec hm,
    ?_, ?_, hif, ?_⟩
  · intro M m hM hm halg
    simp only [recommendedAlgo, halg, hM, hm, Option.getD_some, gt_iff_lt]
    by_cases hc : 3 < M - m
    · simp [hc]
    · simp [hc]
  · intro j t halg hmin
    obtain ⟨hjlen, hget, hle, hstrict⟩ := minConnEnum_spec hmin
    refine ⟨hle, ?_⟩
    simp only [recommendedAlgo, halg, hmin]
    by_cases hc : j = lb.current_server
    · simp [hc]
    · simp [hc]
  · intro hchange
    rw [hif] at hchange ⊢
    by_cases hc : MIN_SECONDS_BETWEEN_ALGO_CHANGES ≤ (now - lb.last_check) / 1000 ∧
        recommendedAlgo lb ≠ lb.algorithm
    · rw [if_pos hc] at hchange ⊢
      refine ⟨?_, rfl, rfl⟩
      have h1 := (Nat.le_div_iff_mul_le (by norm_num)).mp hc.1
      unfold MIN_SECONDS_BETWEEN_ALGO_CHANGES at h1
      omega
    · rw [if_neg hc] at hchange
      exact absurd rfl hchange

/-- Witness for C6: on a two-backend pool with a counter gap of 10 under
round_robin and 6000 ms elapsed, the supervisor applies its recommendation
and restamps last_check. -/
theorem c6_supervisor_witness :
    5000 ≤ 6000 - (0 : Nat) ∧
    (checkConditionsAndSetBestAlgo
      ⟨[⟨"127.0.0.1:3000", 10⟩, ⟨"127.0.0.1:3001", 0⟩], 0, .RoundRobin, 0⟩
      6000).last_check = 6000 ∧
    (checkConditionsAndSetBestAlgo
      ⟨[⟨"127.0.0.1:3000", 10⟩, ⟨"127.0.0.1:3001", 0⟩], 0, .RoundRobin, 0⟩
      6000).algorithm =
      recommendedAlgo
        ⟨[⟨"127.0.0.1:3000", 10⟩, ⟨"127.0.0.1:3001", 0⟩], 0, .RoundRobin, 0⟩ :=
  (c6_supervisor
    ⟨[⟨"127.0.0.1:3000", 10⟩, ⟨"127.0.0.1:3001", 0⟩], 0, .RoundRobin, 0⟩
    6000 (by decide)).2.2.2.2.2 (by decide)

/-- C4: whenever the algorithm in force after the supervisor ran is
least_connections, the pick chooses a backend whose pre-increment counter is
the minimum over the whole pool, earliest pool index among ties (every
strictly earlier slot has a strictly larger counter), sets the cursor to the
chosen index, and increments exactly that backend's counter. -/
theorem c4_least_connections (lb : LoadBalancer) (now : Nat)
    (h1 : lb.servers ≠ [])
    (h2 : (checkConditionsAndSetBestAlgo lb now).algorithm = .LeastConnections) :
    ∃ t, lb.servers[(nextServer lb now).2]? = some t ∧
      (∀ u ∈ lb.servers, t.connections ≤ u.connections) ∧
      (∀ (m : Nat) (u : Server), m < (nextServer lb now).2 →
        lb.servers[m]? = some u → t.connections < u.connections) ∧
      (nextServer lb now).1.current_server = (nextServer lb now).2 ∧
      (nextServer lb now).1.servers =
        lb.servers.set (nextServer lb now).2 t.incrementConnections := by
  obtain ⟨j, t, hmin⟩ := minConnEnum_isSome h1
  obtain ⟨hjlen, hget, hle, hstrict⟩ := minConnEnum_spec hmin
  have hs := check_servers_eq lb now
  have hmin' : minConnEnum (checkConditionsAndSetBestAlgo lb now).servers
      = some (j, t) := by
    rw [hs]
    exact hmin
  have hns : nextServer lb now =
      ({ checkConditionsAndSetBestAlgo lb now with
          servers := incrementAt (checkConditionsAndSetBestAlgo lb now).servers j,
          current_server := j }, j) := by
    simp only [nextServer, h2, hmin']
  refine ⟨t, ?_, hle, ?_, ?_, ?_⟩
  · rw [hns]
    exact hget
  · rw [hns]
    exact hstrict
  · rw [hns]
  · rw [hns]
    show incrementAt (checkConditionsAndSetBestAlgo lb now).servers j
      = lb.servers.set j t.incrementConnections
    rw [hs]
    unfold incrementAt
    rw [List.getD_eq_getElem?_getD, hget]
    rfl

/-- Sample pool pinned to least_connections, for the C4 witness. -/
def lbC4 : LoadBalancer :=
  ⟨[⟨"127.0.0.1:3000", 5⟩, ⟨"127.0.0.1:3001", 2⟩], 0, .LeastConnections, 0⟩

/-- Witness for C4: a two-backend pool with counters 5 and 2 pinned to
least_connections picks the backend with the minimal counter. -/
theorem c4_least_connections_witness :
    ∃ t, lbC4.servers[(nextServer lbC4 0).2]? = some t ∧
      (∀ u ∈ lbC4.servers, t.connections ≤ u.connections) ∧
      (∀ (m : Nat) (u : Server), m < (nextServer lbC4 0).2 →
        lbC4.servers[m]? = some u → t.connections < u.connections) ∧
      (nextServer lbC4 0).1.current_server = (nextServer lbC4 0).2 ∧
      (nextServer lbC4 0).1.servers =
        lbC4.servers.set (nextServer lbC4 0).2 t.incrementConnections :=
  c4_least_connections lbC4 0 (by decide) (by decide)

/-- C10: a pick chooses an in-bounds index, increments exactly that slot's
counter by one while keeping its address, and leaves every other slot and
the pool length untouched; so nothing changes beyond the cursor, the
algorithm, last_check and the one counter. -/
theorem c10_next_server_frame (lb : LoadBalancer) (now : Nat)
    (h1 : lb.servers ≠ [])
    (h2 : lb.current_server < lb.servers.length) :
    (nextServer lb now).2 < lb.servers.length ∧
    (nextServer lb now).1.servers.length = lb.servers.length ∧
    (∀ j, j ≠ (nextServer lb now).2 →
      (nextServer lb now).1.servers[j]? = lb.servers[j]?) ∧
    (∃ t, lb.servers[(nextServer lb now).2]? = some t ∧
      (nextServer lb now).1.servers[(nextServer lb now).2]? =
        some t.incrementConnections) := by
  have hs := check_servers_eq lb now
  have hc := check_cursor_eq lb now
  cases halg : (checkConditionsAndSetBestAlgo lb now).algorithm with
  | RoundRobin =>
    have hns : nextServer lb now =
        ({ checkConditionsAndSetBestAlgo lb now with
            servers := incrementAt (checkConditionsAndSetBestAlgo lb now).servers
              (checkConditionsAndSetBestAlgo lb now).current_server,
            current_server :=
              ((checkConditionsAndSetBestAlgo lb now).current_server + 1) %
                (checkConditionsAndSetBestAlgo lb now).servers.length },
          (checkConditionsAndSetBestAlgo lb now).current_server) := by
      simp only [nextServer, halg]
    rw [hns]
    simp only [hs, hc]
    obtain ⟨hlen, hne, t, hget, hset⟩ := incrementAt_facts h2
    exact ⟨h2, hlen, hne, t, hget, hset⟩
  | LeastConnections =>
    obtain ⟨j, t0, hmin⟩ := minConnEnum_isSome h1
    have hmin' : minConnEnum (checkConditionsAndSetBestAlgo lb now).servers
        = some (j, t0) := by
      rw [hs]
      exact hmin
    have hns : nextServer lb now =
        ({ checkConditionsAndSetBestAlgo lb now with
            servers := incrementAt (checkConditionsAndSetBestAlgo lb now).servers j,
            current_server := j }, j) := by
      simp only [nextServer, halg, hmin']
    rw [hns]
    simp only [hs]
    have hjlen : j < lb.servers.length := (minConnEnum_spec hmin).1
    obtain ⟨hlen, hne, t, hget, hset⟩ := incrementAt_facts hjlen
    exact ⟨hjlen, hlen, hne, t, hget, hset⟩

/-- Sample pool under round_robin with the cursor at 1, for the C10
witness. -/
def lbC10 : LoadBalancer :=
  ⟨[⟨"127.0.0.1:3000", 4⟩, ⟨"127.0.0.1:3001", 9⟩], 1, .RoundRobin, 0⟩

/-- Witness for C10 on a concrete two-backend pool under round_robin. -/
theorem c10_next_server_frame_witness :
    (nextServer lbC10 0).2 < lbC10.servers.length ∧
    (nextServer lbC10 0).1.servers.length = lbC10.servers.length ∧
    (∀ j, j ≠ (nextServer lbC10 0).2 →
      (nextServer lbC10 0).1.servers[j]? = lbC10.servers[j]?) ∧
    (∃ t, lbC10.servers[(nextServer lbC10 0).2]? = some t ∧
      (nextServer lbC10 0).1.servers[(nextServer lbC10 0).2]? =
        some t.incrementConnections) :=
  c10_next_server_frame lbC10 0 (by decide) (by decide)

/-- C8 (amended): the cursor equals the index the pick chose only under
least_connections; under round_robin the chosen index is the pre-call cursor
and the post-call cursor is one past it modulo the pool length. -/
theorem c8_cursor_amended (lb : LoadBalancer) (now : Nat) :
    ((checkConditionsAndSetBestAlgo lb now).algorithm = .LeastConnections →
      (nextServer lb now).1.current_server = (nextServer lb now).2) ∧
    ((checkConditionsAndSetBestAlgo lb now).algorithm = .RoundRobin →
      (nextServer lb now).2 = lb.current_server ∧
      (nextServer lb now).1.current_server =
        (lb.current_server + 1) % lb.servers.length) := by
  have hs := check_servers_eq lb now
  have hc := check_cursor_eq lb now
  constructor
  · intro halg
    cases hmin : minConnEnum (checkConditionsAndSetBestAlgo lb now).servers with
    | none =>
      have hns : nextServer lb now =
          (checkConditionsAndSetBestAlgo lb now,
           (checkConditionsAndSetBestAlgo lb now).current_server) := by
        simp only [nextServer, halg, hmin]
      rw [hns]
    | some p =>
      obtain ⟨j, t⟩ := p
      have hns : nextServer lb now =
          ({ checkConditionsAndSetBestAlgo lb now with
              servers := incrementAt (checkConditionsAndSetBestAlgo lb now).servers j,
              current_server := j }, j) := by
        simp only [nextServer, halg, hmin]
      rw [hns]
  · intro halg
    have hns : nextServer lb now =
        ({ checkConditionsAndSetBestAlgo lb now with
            servers := incrementAt (checkConditionsAndSetBestAlgo lb now).servers
              (checkConditionsAndSetBestAlgo lb now).current_server,
            current_server :=
              ((checkConditionsAndSetBestAlgo lb now).current_server + 1) %
                (checkConditionsAndSetBestAlgo lb now).servers.length },
          (checkConditionsAndSetBestAlgo lb now).current_server) := by
      simp only [nextServer, halg]
    rw [hns]
    exact ⟨hc, by rw [hc, hs]⟩

/-- Sample two-backend pool under round_robin, for the C8 witness. -/
def lbC8 : LoadBalancer :=
  ⟨[⟨"127.0.0.1:3000", 0⟩, ⟨"127.0.0.1:3001", 0⟩], 0, .RoundRobin, 0⟩

/-- Witness for C8 (amended): the round-robin arm on a concrete pool. -/
theorem c8_cursor_amended_witness :
    (nextServer lbC8 0).2 = lbC8.current_server ∧
    (nextServer lbC8 0).1.current_server =
      (lbC8.current_server + 1) % lbC8.servers.length :=
  (c8_cursor_amended lbC8 0).2 (by decide)

/-- Iterated picks: one next_server call per timestamp in `nows`, threading
the state and collecting the chosen indices in order. -/
def nextServerRun : LoadBalancer → List Nat → LoadBalancer × List Nat
  | lb, [] => (lb, [])
  | lb, now :: rest =>
    let p := nextServer lb now
    let q := nextServerRun p.1 rest
    (q.1, p.2 :: q.2)

theorem check_cooldown {lb : LoadBalancer} {now : Nat}
    (h : now - lb.last_check < 5000) :
    checkConditionsAndSetBestAlgo lb now = lb := by
  unfold checkConditionsAndSetBestAlgo
  split_ifs with h1 h2 h3 <;> try rfl
  exact absurd ((Nat.div_lt_iff_lt_mul (by norm_num)).mpr
    (by unfold MIN_SECONDS_BETWEEN_ALGO_CHANGES; omega)) h2

theorem nextServer_rr_cooldown {lb : LoadBalancer} {now : Nat}
    (ha : lb.algorithm = .RoundRobin) (h : now - lb.last_check < 5000) :
    nextServer lb now =
      ({ lb with servers := incrementAt lb.servers lb.current_server,
                 current_server := (lb.current_server + 1) % lb.servers.length },
       lb.current_server) := by
  have hc := check_cooldown h
  simp only [nextServer, hc, ha]

theorem count_map_add_mod_range {N c j : Nat} (hc : c < N) (hj : j < N) :
    ((List.range N).map (fun k => (c + k) % N)).count j = 1 := by
  have hN : 0 < N := by omega
  have hnd : (((List.range N).map (fun k => (c + k) % N))).Nodup := by
    refine (List.nodup_range N).map_on ?_
    intro x hx y hy hxy
    rw [List.mem_range] at hx hy
    have hmq : x % N = y % N := Nat.ModEq.add_left_cancel' c hxy
    rw [Nat.mod_eq_of_lt hx, Nat.mod_eq_of_lt hy] at hmq
    exact hmq
  have hmem : j ∈ (List.range N).map (fun k => (c + k) % N) := by
    refine List.mem_map.mpr ⟨(j + N - c) % N, ?_, ?_⟩
    · exact List.mem_range.mpr (Nat.mod_lt _ hN)
    · rw [Nat.add_mod_mod]
      have he : c + (j + N - c) = j + N := by omega
      rw [he, Nat.add_mod_right]
      exact Nat.mod_eq_of_lt hj
  exact List.count_eq_one_of_mem hnd hmem

theorem rr_run_spec :
    ∀ (nows : List Nat) (lb : LoadBalancer),
      lb.algorithm = .RoundRobin →
      lb.current_server < lb.servers.length →
      (∀ now ∈ nows, now - lb.last_check < 5000) →
      (nextServerRun lb nows).2 =
        (List.range nows.length).map
          (fun k => (lb.current_server + k) % lb.servers.length) ∧
      (nextServerRun lb nows).1.current_server =
        (lb.current_server + nows.length) % lb.servers.length ∧
      (nextServerRun lb nows).1.algorithm = .RoundRobin ∧
      (nextServerRun lb nows).1.last_check = lb.last_check ∧
      (nextServerRun lb nows).1.servers.length = lb.servers.length ∧
      (∀ j, j < lb.servers.length →
        ∃ t t1, lb.servers[j]? = some t ∧
          (nextServerRun lb nows).1.servers[j]? = some t1 ∧
          t1.address = t.address ∧
          t1.connections =
            t.connections + ((nextServerRun lb nows).2.count j : Int)) := by
  intro nows
  induction nows with
  | nil =>
    intro lb ha hc hcool
    refine ⟨by simp [nextServerRun], ?_, ha, rfl, rfl, ?_⟩
    · show lb.current_server = (lb.current_server + 0) % lb.servers.length
      rw [Nat.add_zero, Nat.mod_eq_of_lt hc]
    · intro j hj
      have hjget : lb.servers[j]? = some (lb.servers.get ⟨j, hj⟩) := by
        simp [List.getElem?_eq_getElem hj]
      exact ⟨lb.servers.get ⟨j, hj⟩, lb.servers.get ⟨j, hj⟩, hjget, hjget,
        rfl, by simp [nextServerRun]⟩
  | cons now rest ih =>
    intro lb ha hc hcool
    have hN : 0 < lb.servers.length := by omega
    have hnow : now - lb.last_check < 5000 := hcool now (by simp)
    have hstep := nextServer_rr_cooldown ha hnow
    obtain ⟨hlen1, hother, tc, htc, htc1⟩ := incrementAt_facts hc
    have hrun : nextServerRun lb (now :: rest) =
        ((nextServerRun (nextServer lb now).1 rest).1,
         lb.current_server :: (nextServerRun (nextServer lb now).1 rest).2) := by
      simp only [nextServerRun, hstep]
    obtain ⟨ihpicks, ihcur, ihalg, ihlast, ihlen, ihcnt⟩ :=
      ih (nextServer lb now).1 (by rw [hstep]; exact ha)
        (by rw [hstep]
            show (lb.current_server + 1) % lb.servers.length <
              (incrementAt lb.servers lb.current_server).length
            rw [hlen1]
            exact Nat.mod_lt _ hN)
        (by intro n hn
            rw [hstep]
            exact hcool n (by simp [hn]))
    have hlen' : (nextServer lb now).1.servers.length = lb.servers.length := by
      rw [hstep]
      exact hlen1
    have hcur' : (nextServer lb now).1.current_server =
        (lb.current_server + 1) % lb.servers.length := by
      rw [hstep]
    refine ⟨?_, ?_, ihalg, ?_, ?_, ?_⟩
    · rw [hrun]
      show lb.current_server :: (nextServerRun (nextServer lb now).1 rest).2 =
        (List.range (rest.length + 1)).map
          (fun k => (lb.current_server + k) % lb.servers.length)
      rw [List.range_succ_eq_map, List.map_cons, List.map_map]
      refine congrArg₂ List.cons ?_ ?_
      · rw [Nat.add_zero, Nat.mod_eq_of_lt hc]
      · rw [ihpicks, hcur', hlen']
        refine List.map_congr_left ?_
        intro k hk
        show ((lb.current_server + 1) % lb.servers.length + k) %
            lb.servers.length =
          (lb.current_server + (k + 1)) % lb.servers.length
        rw [Nat.mod_add_mod]
        congr 1
        omega
    · rw [hrun]
      show (nextServerRun (nextServer lb now).1 rest).1.current_server =
        (lb.current_server + (rest.length + 1)) % lb.servers.length
      rw [ihcur, hcur', hlen', Nat.mod_add_mod]
      congr 1
      omega
    · rw [hrun]
      show (nextServerRun (nextServer lb now).1 rest).1.last_check =
        lb.last_check
      rw [ihlast, hstep]
    · rw [hrun]
      show (nextServerRun (nextServer lb now).1 rest).1.servers.length =
        lb.servers.length
      rw [ihlen, hlen']
    · intro j hj
      obtain ⟨t1, t2, h1, h2, h3, h4⟩ := ihcnt j (by rw [hlen']; exact hj)
      rw [hrun]
      by_cases hjc : j = lb.current_server
      · subst hjc
        have ht1 : t1 = tc.incrementConnections := by
          rw [hstep] at h1
          show t1 = tc.incrementConnections
          have : (incrementAt lb.servers lb.current_server)[lb.current_server]? =
              some t1 := h1
          rw [htc1] at this
          exact (Option.some.injEq .. ▸ this).symm
        refine ⟨tc, t2, htc, h2, ?_, ?_⟩
        · rw [h3, ht1]
          rfl
        · rw [h4, ht1]
          show tc.connections + 1 + _ = _
          rw [List.count_cons_self]
          push_cast
          ring
      · have ht1 : lb.servers[j]? = some t1 := by
          rw [hstep] at h1
          rw [← hother j hjc]
          exact h1
        refine ⟨t1, t2, ht1, h2, h3, ?_⟩
        rw [h4, List.count_cons_of_ne hjc]

/-- C5: with round_robin in force and every pick landing inside the
supervisor's five-second cooldown (so the supervisor changes nothing), N
consecutive picks on an N-backend pool return the indices in pool order
starting from the cursor, each index exactly once; the cursor comes back to
its starting point having advanced by one modulo N at each pick, and every
backend's counter is incremented exactly once with all addresses intact. -/
theorem c5_round_robin_cycle (lb : LoadBalancer) (nows : List Nat)
    (ha : lb.algorithm = .RoundRobin)
    (hc : lb.current_server < lb.servers.length)
    (hlen : nows.length = lb.servers.length)
    (hcool : ∀ now ∈ nows, now - lb.last_check < 5000) :
    (nextServerRun lb nows).2 =
      (List.range lb.servers.length).map
        (fun k => (lb.current_server + k) % lb.servers.length) ∧
    (∀ j, j < lb.servers.length → (nextServerRun lb nows).2.count j = 1) ∧
    (nextServerRun lb nows).1.current_server = lb.current_server ∧
    (∀ j, j < lb.servers.length →
      ∃ t t1, lb.servers[j]? = some t ∧
        (nextServerRun lb nows).1.servers[j]? = some t1 ∧
        t1.address = t.address ∧ t1.connections = t.connections + 1) := by
  obtain ⟨hpicks, hcur, halg, hlast, hlen2, hcnt⟩ := rr_run_spec nows lb ha hc hcool
  have hcount1 : ∀ j, j < lb.servers.length →
      (nextServerRun lb nows).2.count j = 1 := by
    intro j hj
    rw [hpicks, hlen]
    exact count_map_add_mod_range hc hj
  refine ⟨by rw [hpicks, hlen], hcount1, ?_, ?_⟩
  · rw [hcur, hlen, Nat.add_mod_right]
    exact Nat.mod_eq_of_lt hc
  · intro j hj
    obtain ⟨t, t1, h1, h2, h3, h4⟩ := hcnt j hj
    refine ⟨t, t1, h1, h2, h3, ?_⟩
    rw [h4, hcount1 j hj]
    simp

/-- Sample three-backend pool under round_robin for the C5 witness, matching
the reference deployment addresses. -/
def lbC5 : LoadBalancer :=
  ⟨[⟨"127.0.0.1:3000", 0⟩, ⟨"127.0.0.1:3001", 0⟩, ⟨"127.0.0.1:3002", 0⟩], 0,
   .RoundRobin, 0⟩

/-- Witness for C5: three picks on the three-backend pool visit 0, 1, 2 once
each and return the cursor to 0. -/
theorem c5_round_robin_cycle_witness :
    (nextServerRun lbC5 [1, 2, 3]).2 =
      (List.range lbC5.servers.length).map
        (fun k => (lbC5.current_server + k) % lbC5.servers.length) ∧
    (∀ j, j < lbC5.servers.length →
      (nextServerRun lbC5 [1, 2, 3]).2.count j = 1) ∧
    (nextServerRun lbC5 [1, 2, 3]).1.current_server = lbC5.current_server ∧
    (∀ j, j < lbC5.servers.length →
      ∃ t t1, lbC5.servers[j]? = some t ∧
        (nextServerRun lbC5 [1, 2, 3]).1.servers[j]? = some t1 ∧
        t1.address = t.address ∧ t1.connections = t.connections + 1) :=
  c5_round_robin_cycle lbC5 [1, 2, 3] (by decide) (by decide) (by decide)
    (by decide)

end LoadBalancerProof
